import Mathlib

/-!
Shallow embedding of the crono scheduler (Verpica/crono-lang) for checking
the natural-language specification against the code.

Source files embedded here:
* `internal/scheduler` (unnamed part_001): `NextRun`, `nextAtTime`, `parseDur`,
  `parseHH`, `parseMM`, `Engine.Run`'s busy-set/overlap handling, and
  `runOnce`'s retry/backoff loop.
* `internal/execer/execer.go`: the environment handling of `RunShell`.

Modelling conventions:
* Go strings are `List Char`; the helpers from Go's `strings` package used by
  the scheduler (`TrimSpace`, `ToLower`, `HasPrefix`/`HasSuffix`,
  `TrimPrefix`, `Contains`, `Fields`, `Cut`, `SplitN`) are given ASCII models.
* Go durations are `int64` nanoseconds; overflow checks of
  `time.ParseDuration` are modelled explicitly on `Nat`/`Int`.
  Fractional duration literals ("1.5h") are outside the model: the model
  rejects them where Go would parse them through `float64` arithmetic.
* `time.Time` is an absolute instant (nanoseconds since the Unix epoch, as an
  unbounded `Int`: Go's `time.Time` range is astronomically larger than any
  duration arithmetic here) together with a `Location`.  A `Location` is a
  fixed UTC offset; daylight-saving transitions are not modelled.
  `time.Date(t.Year(), t.Month(), t.Day(), h, m, 0, 0, loc)` for `t` already
  in `loc` is modelled as midnight of `t`'s civil day in `loc` plus `h:m`,
  and `Weekday` as `(daysSinceEpoch + 4) mod 7` (1970-01-01 was a Thursday),
  which is Go's semantics for fixed-offset zones.
* `time.LoadLocation` is modelled as an abstract zone database
  `List Char → Option Location`.
* The unbounded `for` loops of the source (`nextAtTime`'s weekday loop and
  `NextRun`'s anchored-interval loop) are modelled with explicit fuel; a
  result of `none` for every fuel models non-termination of the Go loop.
-/

namespace Crono

/-! ### Model of the Go `strings` helpers (ASCII) -/

/-- Model of the whitespace class used by `strings.TrimSpace` /
`strings.Fields` (ASCII subset of `unicode.IsSpace`). -/
def isSpaceC (c : Char) : Bool :=
  c == ' ' || c == '\t' || c == '\n' || c == '\r'

/-- ASCII model of `strings.ToLower` on one character. -/
def lowerC (c : Char) : Char :=
  if 65 ≤ c.toNat ∧ c.toNat ≤ 90 then Char.ofNat (c.toNat + 32) else c

/-- Model of `strings.ToLower`. -/
def goToLower (s : List Char) : List Char := s.map lowerC

/-- Model of `strings.TrimSpace`. -/
def goTrim (s : List Char) : List Char :=
  ((s.dropWhile isSpaceC).reverse.dropWhile isSpaceC).reverse

/-- `pfx p s` models `strings.HasPrefix(s, p)`. -/
def pfx : List Char → List Char → Bool
  | [], _ => true
  | _ :: _, [] => false
  | p :: ps, c :: cs => p == c && pfx ps cs

/-- `sfx p s` models `strings.HasSuffix(s, p)`. -/
def sfx (p s : List Char) : Bool := pfx p.reverse s.reverse

/-- Model of `strings.TrimPrefix(s, p)`. -/
def stripPfx (p s : List Char) : List Char :=
  if pfx p s then s.drop p.length else s

/-- `hasSub pat s` models `strings.Contains(s, pat)`. -/
def hasSub (pat : List Char) : List Char → Bool
  | [] => pfx pat []
  | c :: t => pfx pat (c :: t) || hasSub pat t

/-- Accumulator recursion behind `goFields`. -/
def fieldsAux : List Char → List Char → List (List Char)
  | [], acc => if acc.isEmpty then [] else [acc.reverse]
  | c :: t, acc =>
    if isSpaceC c then
      if acc.isEmpty then fieldsAux t [] else acc.reverse :: fieldsAux t []
    else fieldsAux t (c :: acc)

/-- Model of `strings.Fields`: split around runs of whitespace. -/
def goFields (s : List Char) : List (List Char) := fieldsAux s []

/-- `goCut sep s` models `strings.Cut(s, sep)`:
the part before the first occurrence of `sep`, the part after it, and
whether `sep` occurred (Go returns `(s, "", false)` when it does not). -/
def goCut (sep : List Char) : List Char → List Char × List Char × Bool
  | [] => if pfx sep [] then ([], [], true) else ([], [], false)
  | c :: t =>
    if pfx sep (c :: t) then ([], (c :: t).drop sep.length, true)
    else
      match goCut sep t with
      | (b, a, f) => (c :: b, a, f)

/-- Model of `strings.SplitN(s, ":", 2)`: the part before the first colon,
and the part after it when a colon is present. -/
def splitColon (s : List Char) : List Char × Option (List Char) :=
  match goCut [':'] s with
  | (b, a, true) => (b, some a)
  | (_, _, false) => (s, none)

/-! ### Model of `time.ParseDuration` (integer-valued literals) -/

/-- Decimal digit test on characters ('0' to '9'). -/
def isDigitC (c : Char) : Bool := 48 ≤ c.toNat && c.toNat ≤ 57

/-- Decimal accumulation of a digit string onto an initial value. -/
def digitsValFrom (a : Nat) (ds : List Char) : Nat :=
  ds.foldl (fun x c => x * 10 + (c.toNat - 48)) a

/-- Value of a decimal digit string (most significant first). -/
def digitsVal (ds : List Char) : Nat := digitsValFrom 0 ds

/-- Model of Go `time`'s internal `leadingInt`: consume a decimal prefix into
an accumulator, failing (as Go does) when the value would exceed `2^63`. -/
def leadingInt : List Char → Nat → Option (Nat × List Char)
  | [], x => some (x, [])
  | c :: t, x =>
    if isDigitC c then
      if x > 2 ^ 63 / 10 then none
      else
        let x2 := x * 10 + (c.toNat - 48)
        if x2 > 2 ^ 63 then none else leadingInt t x2
    else some (x, c :: t)

/-- Model of Go `time`'s `unitMap`: nanoseconds per unit token. -/
def unitMapGo (u : List Char) : Option Nat :=
  if u == "ns".data then some 1
  else if u == "us".data then some 1000
  else if u == "µs".data then some 1000
  else if u == "μs".data then some 1000
  else if u == "ms".data then some 1000000
  else if u == "s".data then some 1000000000
  else if u == "m".data then some 60000000000
  else if u == "h".data then some 3600000000000
  else none

/-- The `number unit` groups loop of `time.ParseDuration`, with Go's
overflow checks; fractional components ('.') are outside this model and
rejected.  `fuel` bounds the number of groups (each group consumes at least
one character, so `length + 1` fuel is always enough). -/
def durGroups : Nat → List Char → Nat → Option Nat
  | _, [], d => some d
  | 0, _ :: _, _ => none
  | fuel + 1, c :: t, d =>
    if !isDigitC c then none
    else
      match leadingInt (c :: t) 0 with
      | none => none
      | some (v, rest) =>
        if rest.head? == some '.' then none
        else
          let u := rest.takeWhile fun ch => !isDigitC ch && ch != '.'
          let rest2 := rest.drop u.length
          if u.isEmpty then none
          else
            match unitMapGo u with
            | none => none
            | some unit =>
              if v > 2 ^ 63 / unit then none
              else
                let d2 := d + v * unit
                if d2 > 2 ^ 63 then none else durGroups fuel rest2 d2

/-- The sign handling of `time.ParseDuration`
(`c := s[0]; if c == '-' || c == '+' { neg = c == '-'; s = s[1:] }`). -/
def signSplit (s : List Char) : Bool × List Char :=
  match s with
  | [] => (false, [])
  | c :: t => if c = '-' then (true, t) else if c = '+' then (false, t) else (false, c :: t)

/-- `time.ParseDuration` after the sign is stripped: the special case `"0"`,
then `number unit` groups, then the sign/overflow epilogue. -/
def pdCore (neg : Bool) (s1 : List Char) : Option Int :=
  if s1 == ['0'] then some 0
  else if s1.isEmpty then none
  else
    match durGroups (s1.length + 1) s1 0 with
    | none => none
    | some d =>
      if neg then some (-(d : Int))
      else if d > 2 ^ 63 - 1 then none else some (d : Int)

/-- Model of `time.ParseDuration` restricted to integer-valued literals:
optional sign, the special case `"0"`, then `number unit` groups.  Returns
the duration in nanoseconds, `none` on any parse error or int64 overflow. -/
def goParseDuration (s : List Char) : Option Int :=
  pdCore (signSplit s).1 (signSplit s).2

/-- Errors of the scheduler's `parseDur`: an ordinary parse error, or the
runtime panic `s[len(s)-1]` raises when the trimmed string is empty. -/
inductive DurErr
  | invalid
  | emptyPanic
deriving DecidableEq, Repr

/-- Two's-complement wraparound of Go's `int64` arithmetic. -/
def wrap64 (n : Int) : Int := (n + 2 ^ 63) % 2 ^ 64 - 2 ^ 63

/-- Model of scheduler `parseDur` (part_001:272-289): trim, take the last
character as the unit, try `time.ParseDuration` on the whole string, and on
failure retry with the unit replaced by `h` and multiply by 24 when the unit
was `d`.  The `h * 24` multiplication wraps like Go's int64 `Duration`. -/
def parseDur (s0 : List Char) : Except DurErr Int :=
  let s := goTrim s0
  match s.getLast? with
  | none => .error .emptyPanic
  | some unit =>
    let value := s.dropLast
    match goParseDuration (value ++ [unit]) with
    | some n => .ok n
    | none =>
      if unit = 'd' then
        match goParseDuration (value ++ ['h']) with
        | some h => .ok (wrap64 (h * 24))
        | none => .error .invalid
      else .error .invalid

/-! ### Model of `time.Time` with fixed-offset locations -/

def nsPerSec : Int := 1000000000
def nsPerMin : Int := 60 * nsPerSec
def nsPerHour : Int := 60 * nsPerMin
def nsPerDay : Int := 24 * nsPerHour

/-- A `time.Location` modelled as a fixed UTC offset in seconds. -/
structure Location where
  offsetSec : Int
deriving DecidableEq, Repr

/-- A `time.Time`: an absolute instant (ns since the Unix epoch) plus the
location it is presented in. -/
structure GoTime where
  ns : Int
  loc : Location
deriving DecidableEq, Repr

/-- Model of `t.Add(d)` (`d` in nanoseconds). -/
def addT (t : GoTime) (d : Int) : GoTime := ⟨t.ns + d, t.loc⟩

/-- Model of `t.In(l)`: same instant, presented in `l`. -/
def inLoc (t : GoTime) (l : Location) : GoTime := ⟨t.ns, l⟩

/-- Model of `t.After(u)`: strict comparison of absolute instants. -/
def afterT (t u : GoTime) : Bool := decide (u.ns < t.ns)

/-- Wall-clock nanoseconds of `t` in its own location. -/
def localNs (t : GoTime) : Int := t.ns + t.loc.offsetSec * nsPerSec

/-- Civil day number (days since 1970-01-01) of `t` in its location. -/
def dayOf (t : GoTime) : Int := localNs t / nsPerDay

/-- Model of `t.Weekday()`: Sunday = 0, ..., Saturday = 6
(1970-01-01 was a Thursday, weekday 4). -/
def weekdayT (t : GoTime) : Int := (dayOf t + 4) % 7

/-- Model of `time.Date(t.Year(), t.Month(), t.Day(), h, m, 0, 0, loc)` for a
`t` that is already presented in `loc`: midnight of `t`'s civil day in its
location, plus `h` hours and `m` minutes of wall clock. -/
def civilDate (t : GoTime) (h m : Int) : GoTime :=
  ⟨dayOf t * nsPerDay + h * nsPerHour + m * nsPerMin - t.loc.offsetSec * nsPerSec, t.loc⟩

/-! ### Clock-field parsing (`parseHH` / `parseMM`) -/

/-- Model of `fmt.Sscanf(s, "%d", &x)`: skip leading spaces, optional sign,
then a nonempty run of digits; `none` when no integer can be read. -/
def sscanfD (s : List Char) : Option Int :=
  let s1 := s.dropWhile isSpaceC
  match s1 with
  | '-' :: t =>
    let ds := t.takeWhile isDigitC
    if ds.isEmpty then none else some (-(digitsVal ds : Int))
  | '+' :: t =>
    let ds := t.takeWhile isDigitC
    if ds.isEmpty then none else some (digitsVal ds : Int)
  | _ =>
    let ds := s1.takeWhile isDigitC
    if ds.isEmpty then none else some (digitsVal ds : Int)

/-- Model of scheduler `parseHH` (part_001:291-301): read the hour field
before the colon, defaulting to 0 on scan failure, clamped into [0, 23]. -/
def parseHH (hhmm : List Char) : Int :=
  let h := (sscanfD (splitColon hhmm).1).getD 0
  if h < 0 then 0 else if h > 23 then 23 else h

/-- Model of scheduler `parseMM` (part_001:303-313): read the minute field
after the colon (0 when there is no colon), defaulting to 0 on scan
failure, clamped into [0, 59]. -/
def parseMM (hhmm : List Char) : Int :=
  match (splitColon hhmm).2 with
  | none => 0
  | some p2 =>
    let m := (sscanfD p2).getD 0
    if m < 0 then 0 else if m > 59 then 59 else m

/-! ### `nextAtTime` and `NextRun` -/

/-- The weekday loop of `nextAtTime` (part_001:261-267): keep adding 24h
until the weekday falls Monday(1)..Friday(5).  Seven fuel steps always
suffice (weekdays cycle with period 7); the Go loop always terminates. -/
def weekdayAdvance : Nat → GoTime → GoTime
  | 0, c => c
  | n + 1, c =>
    if 1 ≤ weekdayT c ∧ weekdayT c ≤ 5 then c
    else weekdayAdvance n (addT c nsPerDay)

/-- Model of scheduler `nextAtTime` (part_001:250-270). -/
def nextAtTime (t : GoTime) (hhmm : List Char) (loc : Location)
    (weekdayOnly : Bool) : GoTime :=
  let h := parseHH hhmm
  let m := parseMM hhmm
  let inT := inLoc t loc
  let cand0 := civilDate inT h m
  let cand1 := if afterT cand0 inT then cand0 else addT cand0 nsPerDay
  let cand2 := if weekdayOnly then weekdayAdvance 7 cand1 else cand1
  inLoc cand2 t.loc

/-- The anchored-interval loop of `NextRun` (part_001:220-223):
`for !t.After(target) { t = t.Add(d) }`, fuel-indexed.  `none` for every
fuel models non-termination of the Go loop. -/
def anchorLoop (d target : Int) : Nat → Int → Option Int
  | 0, _ => none
  | n + 1, t => if target < t then some t else anchorLoop d target n (t + d)

/-- Abstract zone database modelling `time.LoadLocation`. -/
def ZoneDB := List Char → Option Location

/-- Outcome of `NextRun`: a time, an error, or a Go runtime panic
(reachable only through `parseDur` on an empty duration string). -/
inductive RunOut
  | ok (t : GoTime)
  | err (msg : List Char)
  | panicked
deriving DecidableEq, Repr

def everyLit : List Char := "every ".data
def atLit : List Char := "at ".data
def everyDayAtLit : List Char := "every day at ".data
def everyWeekdayAtLit : List Char := "every weekday at ".data
def atPadLit : List Char := " at ".data
def startingAtLit : List Char := " starting at ".data

/-- The guard of `NextRun`'s pure-interval branch (part_001:161):
starts with "every ", ends with a unit letter, has no " at ". -/
def pureIntervalCond (l : List Char) : Bool :=
  pfx everyLit l &&
    (sfx "s".data l || sfx "m".data l || sfx "h".data l || sfx "d".data l) &&
    !hasSub atPadLit l

/-- The guard of `NextRun`'s clock-time branch (part_001:170). -/
def clockCond (l : List Char) : Bool :=
  pfx atLit l || pfx everyDayAtLit l || pfx everyWeekdayAtLit l

/-- The guard of `NextRun`'s anchored-interval branch (part_001:200). -/
def anchoredCond (l : List Char) : Bool :=
  pfx everyLit l && hasSub startingAtLit l

/-- Body of `NextRun`'s clock-time branch after the form and the remaining
text `l2` are known (part_001:181-196): first field is HH:MM, optional
second field is the timezone name (a failed lookup is an error here). -/
def clockBranch (db : ZoneDB) (localZone : Location) (t : GoTime)
    (weekdayOnly : Bool) (l2 : List Char) : Option RunOut :=
  match goFields l2 with
  | [] => some (.err "missing time".data)
  | hhmm :: rest =>
    match rest with
    | [] => some (.ok (nextAtTime t hhmm localZone weekdayOnly))
    | tz :: _ =>
      match db tz with
      | none => some (.err ("unknown TZ: ".data ++ tz))
      | some lo => some (.ok (nextAtTime t hhmm lo weekdayOnly))

/-- Body of `NextRun`'s anchored-interval branch after the interval `d` is
parsed (part_001:206-224): first field after "starting at" is HH:MM,
optional second field is the timezone (a failed lookup is silently ignored,
falling back to the local zone); then the daily anchor is advanced by `d`
until strictly after the reference instant. -/
def anchoredBranch (fuel : Nat) (db : ZoneDB) (localZone : Location)
    (t : GoTime) (d : Int) (after : List Char) : Option RunOut :=
  match goFields after with
  | [] => some (.err "missing time after starting at".data)
  | hhmm :: rest =>
    let lo :=
      match rest with
      | [] => localZone
      | tz :: _ =>
        match db tz with
        | some lo => lo
        | none => localZone
    let base := civilDate (inLoc t lo) (parseHH hhmm) (parseMM hhmm)
    match anchorLoop d t.ns fuel base.ns with
    | none => none
    | some r => some (.ok ⟨r, t.loc⟩)

/-- Model of scheduler `NextRun` (part_001:156-228).  `db` models
`time.LoadLocation`, `localZone` models `time.Local`, and `fuel` bounds the
anchored-interval loop (`none` = the Go code is still looping). -/
def NextRun (fuel : Nat) (db : ZoneDB) (localZone : Location)
    (expr0 : List Char) (t : GoTime) : Option RunOut :=
  let expr := goTrim expr0
  let l := goToLower expr
  if pureIntervalCond l then
    match parseDur (stripPfx everyLit l) with
    | .ok d => some (.ok (addT t d))
    | .error .emptyPanic => some .panicked
    | .error .invalid => some (.err "bad duration".data)
  else if clockCond l then
    let p : Bool × List Char :=
      if pfx everyWeekdayAtLit l then (true, stripPfx everyWeekdayAtLit l)
      else if pfx everyDayAtLit l then (false, stripPfx everyDayAtLit l)
      else (false, stripPfx atLit l)
    clockBranch db localZone t p.1 p.2
  else if anchoredCond l then
    let cut := goCut startingAtLit l
    match parseDur (stripPfx everyLit cut.1) with
    | .error .emptyPanic => some .panicked
    | .error .invalid => some (.err "bad duration".data)
    | .ok d => anchoredBranch fuel db localZone t d cut.2.1
  else some (.err ("unsupported expression (MVP): ".data ++ expr))

/-! ### Model of the Runner (`runOnce`, part_001:98-143)

Per attempt, `runOnce` derives `runCtx` from the root context (time-bounded
when `Job.Timeout > 0`), calls the executor, and on failure sleeps with
`select { case <-runCtx.Done(): return; case <-time.After(sleep): }`.
An attempt outcome is abstracted as success or failure; a failure carries
whether `runCtx.Done()` is already closed when that select runs.  When the
attempt was ended by its own per-attempt timeout (and the root context is
alive), that flag is `true`: the deadline has expired, so `runCtx.Done()` is
closed and (the backoff sleep being positive) the select takes the `Done`
branch. -/

/-- Outcome of one executor call, as seen by `runOnce`'s loop. -/
inductive AttRes
  | success
  | failure (ctxDone : Bool)
deriving DecidableEq, Repr

/-- How a `runOnce` invocation ends. -/
inductive RunEnd
  | success
  | exhausted
  | canceledDuringBackoff
deriving DecidableEq, Repr

/-- The retry loop of `runOnce` (part_001:112-142).  `res i` is the outcome
of the `i`-th executor call (0-based), `attempt` is Go's `attempt` counter,
`execs` counts executor calls made so far.  Returns how the invocation ended
and how many executor calls were made.  Fuel `retryN + 1` always suffices
(each iteration increments `attempt`, and the loop stops once
`attempt > retryN`); the fuel-exhausted case is unreachable then. -/
def runOnceLoop (retryN : Nat) (res : Nat → AttRes) :
    Nat → Nat → Nat → RunEnd × Nat
  | 0, _, execs => (.exhausted, execs)
  | fuel + 1, attempt, execs =>
    match res execs with
    | .success => (.success, execs + 1)
    | .failure ctxDone =>
      if attempt + 1 > retryN then (.exhausted, execs + 1)
      else if ctxDone then (.canceledDuringBackoff, execs + 1)
      else runOnceLoop retryN res fuel (attempt + 1) (execs + 1)

/-- Model of a whole `runOnce` invocation: the loop entered with
`attempt = 0` and ample fuel. -/
def runOnce (retryN : Nat) (res : Nat → AttRes) : RunEnd × Nat :=
  runOnceLoop retryN res (retryN + 1) 0 0

/-- Model of the backoff base (part_001:130-133), durations in int64
nanoseconds: `bo := time.Duration(1<<uint(min(attempt, 6))) * backoffMin`
(the int64 `time.Duration` product wraps on overflow), then
`if bo > backoffMax { bo = backoffMax }`. -/
def backoffBase (backoffMin backoffMax : Int) (attempt : Nat) : Int :=
  let bo := wrap64 (2 ^ Nat.min attempt 6 * backoffMin)
  if bo > backoffMax then backoffMax else bo

/-- The argument Go passes to `rand.Int63n` at part_001:134:
`int64(bo/4 + 1)` with Go's truncated int64 division.  `rand.Int63n`
draws uniformly from `[0, n)` and panics when `n ≤ 0`. -/
def jitterArg (bo : Int) : Int := Int.tdiv bo 4 + 1

/-- Model of the sleep computation (part_001:135): `sleep := bo/2 + jitter`
(Go truncated division), where a drawn jitter satisfies
`0 ≤ jitter < jitterArg bo`. -/
def sleepFor (bo jitter : Int) : Int := Int.tdiv bo 2 + jitter

/-! ### Model of the Engine's busy-set / overlap handling
(`Engine.Run`, part_001:63-86)

All busy-set accesses in the source occur under one mutex, so the concurrent
system is modelled as an interleaving of two atomic events: an occurrence of
a job firing (the locked check-and-set at lines 64-86) and an in-flight
invocation completing (the locked `delete` in the goroutine's `defer`,
lines 79-83).  `inflight` is the multiset of job names with a dispatched,
not-yet-completed `runOnce` invocation; `skips` records the overlap log
events (lines 67 and 71; the unimplemented `queue`/`cancel-prev` policies
take the same skip path). -/

structure EngState where
  busy : List String
  inflight : List String
  skips : List String
deriving DecidableEq, Repr

/-- Atomic events of the engine loop's busy-set protocol. -/
inductive EngEv
  | fire (j : String)
  | complete (j : String)

/-- One atomic transition of the engine's busy-set protocol. -/
inductive EngStep : EngState → EngEv → EngState → Prop
  | fireBusy {s : EngState} {j : String} :
      j ∈ s.busy →
      EngStep s (.fire j) ⟨s.busy, s.inflight, j :: s.skips⟩
  | fireFree {s : EngState} {j : String} :
      j ∉ s.busy →
      EngStep s (.fire j) ⟨j :: s.busy, j :: s.inflight, s.skips⟩
  | complete {s : EngState} {j : String} :
      j ∈ s.inflight →
      EngStep s (.complete j) ⟨s.busy.erase j, s.inflight.erase j, s.skips⟩

/-- The engine starts with an empty busy set and nothing in flight. -/
def engInit : EngState := ⟨[], [], []⟩

/-- States the engine's busy-set protocol can reach. -/
inductive EngReachable : EngState → Prop
  | init : EngReachable engInit
  | step {s s2 : EngState} {e : EngEv} :
      EngReachable s → EngStep s e s2 → EngReachable s2

/-! ### Model of the Executor's environment handling
(`RunShell`, execer.go:22-29)

`exec.Cmd.Env` is `nil` (model: `none`) unless the job declares environment
entries; per `os/exec`, a `nil` `Env` makes the child inherit the parent
process environment, and a non-`nil` `Env` is used verbatim. -/

/-- One `KEY=VALUE` entry as built at execer.go:26. -/
def kvJoin (p : String × String) : String := p.1 ++ "=" ++ p.2

/-- Model of the `c.Env` field after execer.go:22-29: `append` to the `nil`
initial `c.Env` yields exactly the declared entries; an empty declaration
leaves `c.Env` at `nil`. -/
def cmdEnvOf (env : List (String × String)) : Option (List String) :=
  if env.length > 0 then some (env.map kvJoin) else none

/-- The environment the child process actually receives (`os/exec`
semantics: a `nil` `Env` inherits the parent environment). -/
def effectiveEnv (parent : List String) (env : List (String × String)) :
    List String :=
  (cmdEnvOf env).getD parent

/-! ### Shared concrete inputs for witnesses and counterexamples -/

/-- UTC as a fixed-offset location. -/
def utc : Location := ⟨0⟩

/-- A zone database that knows no names (every `LoadLocation` fails). -/
def dbEmpty : ZoneDB := fun _ => none

/-- 2024-01-01 08:00:00 UTC (a Monday; 19723 days after the epoch). -/
def refT : GoTime := ⟨(19723 * 86400 + 8 * 3600) * 1000000000, utc⟩

/-- 2024-01-06 08:00:00 UTC (a Saturday). -/
def satT : GoTime := ⟨(19728 * 86400 + 8 * 3600) * 1000000000, utc⟩

/-- The clock-time candidate of `nextAtTime` before the weekday loop
(part_001:255-259): today's HH:MM in the target zone, advanced by one day
when not strictly after the zone-local reference instant. -/
def clockCand (t : GoTime) (hhmm : List Char) (loc : Location) : GoTime :=
  let inT := inLoc t loc
  let cand0 := civilDate inT (parseHH hhmm) (parseMM hhmm)
  if afterT cand0 inT then cand0 else addT cand0 nsPerDay

/-- Nanoseconds per schedule unit letter ('d' meaning 24 hours). -/
def unitNs : Char → Nat
  | 's' => 1000000000
  | 'm' => 60000000000
  | 'h' => 3600000000000
  | 'd' => 86400000000000
  | _ => 0

/-- First executor call ends by per-attempt timeout (so `runCtx.Done()` is
closed at the backoff select); a second call would succeed. -/
def resTimeoutThenOk : Nat → AttRes := fun i => if i = 0 then .failure true else .success

/-- First executor call fails ordinarily (attempt context still live); a
second call would succeed. -/
def resFailThenOk : Nat → AttRes := fun i => if i = 0 then .failure false else .success

/-- The busy-set invariant: at most one invocation of a job name is in
flight, the busy set holds a name exactly while an invocation of it is in
flight, and the busy set has at most one entry per name. -/
def EngInv (s : EngState) : Prop :=
  ∀ j : String,
    s.inflight.count j ≤ 1 ∧
    (j ∈ s.busy ↔ s.inflight.count j = 1) ∧
    s.busy.count j ≤ 1

/-! ### Helper lemmas on the time model -/

theorem parseHH_bounds (s : List Char) : 0 ≤ parseHH s ∧ parseHH s ≤ 23 := by
  have hh : ∀ x : Int,
      0 ≤ (if x < 0 then (0 : Int) else if x > 23 then 23 else x) ∧
      (if x < 0 then (0 : Int) else if x > 23 then 23 else x) ≤ 23 := by
    intro x
    split_ifs <;> omega
  exact hh ((sscanfD (splitColon s).1).getD 0)

theorem parseMM_bounds (s : List Char) : 0 ≤ parseMM s ∧ parseMM s ≤ 59 := by
  have hm : ∀ x : Int,
      0 ≤ (if x < 0 then (0 : Int) else if x > 59 then 59 else x) ∧
      (if x < 0 then (0 : Int) else if x > 59 then 59 else x) ≤ 59 := by
    intro x
    split_ifs <;> omega
  unfold parseMM
  cases (splitColon s).2 with
  | none => norm_num
  | some p2 => exact hm ((sscanfD p2).getD 0)

/-- The `time.Date` candidate of a civil day lies less than one day after
any instant of that civil day, whenever the clock fields are nonnegative. -/
theorem civilDate_gt (t : GoTime) (h m : Int) (hh : 0 ≤ h) (hm : 0 ≤ m) :
    t.ns - nsPerDay < (civilDate t h m).ns := by
  simp only [civilDate, dayOf, localNs, nsPerDay, nsPerHour, nsPerMin, nsPerSec]
  omega

/-- The weekday loop only moves the candidate forward. -/
theorem weekdayAdvance_ge (n : Nat) (c : GoTime) :
    c.ns ≤ (weekdayAdvance n c).ns := by
  induction n generalizing c with
  | zero => exact le_refl _
  | succ k ih =>
    unfold weekdayAdvance
    split_ifs with hw
    · exact le_refl _
    · have h2 := ih (addT c nsPerDay)
      have h3 : c.ns ≤ (addT c nsPerDay).ns := by
        simp only [addT, nsPerDay, nsPerHour, nsPerMin, nsPerSec]
        omega
      exact le_trans h3 h2

/-- `nextAtTime` always returns an instant strictly after the reference
instant (the candidate starts less than a day before it, is pushed one day
forward when not strictly after, and the weekday loop only adds days). -/
theorem nextAtTime_after (t : GoTime) (hhmm : List Char) (loc : Location)
    (wk : Bool) : t.ns < (nextAtTime t hhmm loc wk).ns := by
  have hcg := civilDate_gt (inLoc t loc) (parseHH hhmm) (parseMM hhmm)
    (parseHH_bounds hhmm).1 (parseMM_bounds hhmm).1
  have hin : (inLoc t loc).ns = t.ns := rfl
  rw [hin] at hcg
  unfold nextAtTime
  set cand0 := civilDate (inLoc t loc) (parseHH hhmm) (parseMM hhmm) with hc0
  have hcand1 : ∀ c1 : GoTime,
      c1 = (if afterT cand0 (inLoc t loc) then cand0 else addT cand0 nsPerDay) →
      t.ns < c1.ns := by
    intro c1 hc1
    by_cases ha : afterT cand0 (inLoc t loc)
    · rw [if_pos ha] at hc1
      subst hc1
      have : (inLoc t loc).ns < cand0.ns := of_decide_eq_true ha
      exact this
    · rw [if_neg ha] at hc1
      subst hc1
      simp only [addT]
      have hday : (0 : Int) < nsPerDay := by norm_num [nsPerDay, nsPerHour, nsPerMin, nsPerSec]
      omega
  cases wk with
  | false =>
    simp only [Bool.false_eq_true, if_false]
    exact hcand1 (if afterT cand0 (inLoc t loc) then cand0 else addT cand0 nsPerDay) rfl
  | true =>
    simp only [if_true]
    have h1 := hcand1 (if afterT cand0 (inLoc t loc) then cand0 else addT cand0 nsPerDay) rfl
    have h2 := weekdayAdvance_ge 7 (if afterT cand0 (inLoc t loc) then cand0 else addT cand0 nsPerDay)
    have hfin : (inLoc (weekdayAdvance 7 (if afterT cand0 (inLoc t loc) then cand0 else addT cand0 nsPerDay)) t.loc).ns =
        (weekdayAdvance 7 (if afterT cand0 (inLoc t loc) then cand0 else addT cand0 nsPerDay)).ns := rfl
    rw [hfin]
    omega

/-! ### Helper lemmas on the anchored-interval loop -/

/-- Soundness of the anchored loop: a returned instant is strictly after
the target, is the anchor plus a whole number of intervals, and every
earlier multiple was not yet strictly after the target. -/
theorem anchorLoop_sound (d target : Int) :
    ∀ (fuel : Nat) (t0 r : Int), anchorLoop d target fuel t0 = some r →
      target < r ∧ ∃ k : Nat, r = t0 + d * k ∧
        ∀ j : Nat, j < k → t0 + d * j ≤ target := by
  intro fuel
  induction fuel with
  | zero =>
    intro t0 r h
    simp [anchorLoop] at h
  | succ n ih =>
    intro t0 r h
    unfold anchorLoop at h
    by_cases hlt : target < t0
    · rw [if_pos hlt] at h
      obtain rfl : t0 = r := by injection h
      refine ⟨hlt, 0, by simp, ?_⟩
      intro j hj
      omega
    · rw [if_neg hlt] at h
      obtain ⟨h1, k, hk, hmin⟩ := ih (t0 + d) r h
      refine ⟨h1, k + 1, ?_, ?_⟩
      · rw [hk]
        push_cast
        ring
      · intro j hj
        cases j with
        | zero => simpa using not_lt.mp hlt
        | succ j2 =>
          have := hmin j2 (by omega)
          calc t0 + d * (j2 + 1 : Nat) = t0 + d + d * j2 := by push_cast; ring
          _ ≤ target := this

/-- Termination of the anchored loop for positive intervals: once the fuel
covers the distance to the target, the loop returns. -/
theorem anchorLoop_reaches (d target : Int) (hd : 0 < d) :
    ∀ (fuel : Nat) (t0 : Int), target < t0 + d * fuel →
      ∃ r, anchorLoop d target (fuel + 1) t0 = some r := by
  intro fuel
  induction fuel with
  | zero =>
    intro t0 h
    refine ⟨t0, ?_⟩
    unfold anchorLoop
    rw [if_pos (by simpa using h)]
  | succ n ih =>
    intro t0 h
    by_cases hlt : target < t0
    · refine ⟨t0, ?_⟩
      unfold anchorLoop
      rw [if_pos hlt]
    · obtain ⟨r, hr⟩ := ih (t0 + d) (by push_cast at h ⊢; linarith)
      refine ⟨r, ?_⟩
      unfold anchorLoop
      rw [if_neg hlt]
      exact hr

/-- Divergence of the anchored loop for nonpositive intervals starting at
or before the target: no amount of fuel makes it return. -/
theorem anchorLoop_stuck (d target : Int) (hd : d ≤ 0) :
    ∀ (fuel : Nat) (t0 : Int), t0 ≤ target → anchorLoop d target fuel t0 = none := by
  intro fuel
  induction fuel with
  | zero =>
    intro t0 h
    rfl
  | succ n ih =>
    intro t0 h
    unfold anchorLoop
    rw [if_neg (by omega)]
    exact ih (t0 + d) (by omega)

/-! ### C9: clock-field parsing clamps and never rejects -/

/-- C9: `parseHH`/`parseMM` are total on all strings; the parsed hour is
clamped into [0, 23] and the parsed minute into [0, 59]. -/
theorem clock_parse_clamped (s : List Char) :
    (0 ≤ parseHH s ∧ parseHH s ≤ 23) ∧ (0 ≤ parseMM s ∧ parseMM s ≤ 59) :=
  ⟨parseHH_bounds s, parseMM_bounds s⟩

/-! ### C1: NextRun results versus the reference instant -/

/-- C1 counterexample: the pure-interval expression "every 0s" (whose
duration parses successfully, to 0) makes `NextRun` return the reference
instant itself, which is not strictly after it. -/
theorem nextRun_every0s_cex :
    NextRun 1 dbEmpty utc "every 0s".data refT = some (.ok refT) ∧
    afterT refT refT = false := by
  constructor
  · rfl
  · rfl

/-- A clock-time branch result is strictly after the reference instant. -/
theorem clockBranch_after (db : ZoneDB) (lz : Location) (t : GoTime)
    (w : Bool) (l2 : List Char) (r : GoTime)
    (h : clockBranch db lz t w l2 = some (.ok r)) : t.ns < r.ns := by
  unfold clockBranch at h
  split at h
  · simp at h
  · split at h
    · simp only [Option.some.injEq, RunOut.ok.injEq] at h
      subst h
      exact nextAtTime_after _ _ _ _
    · split at h
      · simp at h
      · simp only [Option.some.injEq, RunOut.ok.injEq] at h
        subst h
        exact nextAtTime_after _ _ _ _

/-- An anchored-interval branch result is strictly after the reference
instant (whenever the loop returned at all). -/
theorem anchoredBranch_after (fuel : Nat) (db : ZoneDB) (lz : Location)
    (t : GoTime) (d : Int) (after : List Char) (r : GoTime)
    (h : anchoredBranch fuel db lz t d after = some (.ok r)) : t.ns < r.ns := by
  simp only [anchoredBranch] at h
  split at h
  · simp at h
  · split at h
    · simp at h
    · rename_i rns hloop
      have h1 := (anchorLoop_sound _ _ _ _ _ hloop).1
      simp only [Option.some.injEq, RunOut.ok.injEq] at h
      subst h
      exact h1

/-- C1 amended: whenever `NextRun` returns an instant, and the expression is
not a pure-interval one whose parsed duration is nonpositive (such as
"every 0s"), the returned instant is strictly after the reference instant;
a pure-interval expression with nonpositive duration returns
`from + duration ≤ from` instead. -/
theorem nextRun_after_amended (fuel : Nat) (db : ZoneDB) (lz : Location)
    (expr : List Char) (t r : GoTime)
    (hok : NextRun fuel db lz expr t = some (.ok r))
    (hpos : ∀ d : Int, pureIntervalCond (goToLower (goTrim expr)) = true →
      parseDur (stripPfx everyLit (goToLower (goTrim expr))) = .ok d → 0 < d) :
    t.ns < r.ns := by
  simp only [NextRun] at hok
  split at hok
  · -- pure-interval branch
    rename_i hcond
    split at hok
    · rename_i d hd
      have hdpos := hpos d hcond hd
      have hr : addT t d = r := by
        simpa using hok
      subst hr
      simp only [addT]
      omega
    · simp at hok
    · simp at hok
  · -- remaining branches
    split at hok
    · exact clockBranch_after _ _ _ _ _ _ hok
    · split at hok
      · split at hok
        · simp at hok
        · simp at hok
        · exact anchoredBranch_after _ _ _ _ _ _ _ hok
      · simp at hok

/-- Witness for `nextRun_after_amended` at "every 5s". -/
theorem nextRun_after_witness : refT.ns < (addT refT 5000000000).ns := by
  refine nextRun_after_amended 1 dbEmpty utc "every 5s".data refT
    (addT refT 5000000000) rfl ?_
  intro d hcond hd
  rw [show parseDur (stripPfx everyLit (goToLower (goTrim "every 5s".data))) =
      Except.ok (5000000000 : Int) from rfl] at hd
  injection hd with h
  omega

/-! ### C5: anchored-interval termination -/

/-- C5 counterexample: on "every 0s starting at 00:00" from 08:00 of the
same day, the anchored loop has made no progress after 100 iterations (the
fuel-indexed model returns `none`): the claim's "including zero-length
intervals such as 'every 0s'" fails. -/
theorem anchored_zero_interval_cex :
    NextRun 100 dbEmpty utc "every 0s starting at 00:00".data refT = none := by
  rfl

/-- C5 amended: for every positive interval the anchored loop terminates
and returns the anchor plus the smallest number of intervals strictly after
the reference instant; for "every 0s starting at 00:00" with the anchor not
after the reference instant the Go loop never terminates (`none` for every
fuel); concrete anchored run: "every 6h starting at 00:00" from 08:00
returns 12:00 of the same day. -/
theorem anchored_termination_amended :
    (∀ d target t0 : Int, 0 < d →
      ∃ (fuel : Nat) (r : Int) (k : Nat), anchorLoop d target fuel t0 = some r ∧
        r = t0 + d * k ∧ target < r ∧ ∀ j : Nat, j < k → t0 + d * j ≤ target) ∧
    (∀ fuel : Nat, NextRun fuel dbEmpty utc "every 0s starting at 00:00".data refT = none) ∧
    NextRun 30 dbEmpty utc "every 6h starting at 00:00".data refT =
      some (.ok ⟨(19723 * 86400 + 12 * 3600) * 1000000000, utc⟩) := by
  refine ⟨?_, ?_, ?_⟩
  · intro d target t0 hd
    obtain ⟨fuel, hfuel⟩ : ∃ fuel : Nat, target < t0 + d * fuel := by
      refine ⟨(target - t0).toNat + 1, ?_⟩
      have h1 : (target - t0 : Int) ≤ ((target - t0).toNat : Int) := Int.self_le_toNat _
      have h2 : (1 : Int) ≤ d := hd
      have h3 : (0 : Int) ≤ ((target - t0).toNat : Int) + 1 := by positivity
      have h4 : 1 * (((target - t0).toNat : Int) + 1) ≤ d * (((target - t0).toNat : Int) + 1) :=
        mul_le_mul_of_nonneg_right h2 h3
      push_cast
      linarith
    obtain ⟨r, hr⟩ := anchorLoop_reaches d target hd fuel t0 hfuel
    obtain ⟨h1, k, hk, hmin⟩ := anchorLoop_sound d target _ t0 r hr
    exact ⟨fuel + 1, r, k, hr, hk, h1, hmin⟩
  · intro fuel
    have hred : NextRun fuel dbEmpty utc "every 0s starting at 00:00".data refT =
        match anchorLoop 0 refT.ns fuel ((19723 * 86400 : Int) * 1000000000) with
        | none => none
        | some r => some (.ok ⟨r, refT.loc⟩) := rfl
    rw [hred, anchorLoop_stuck 0 refT.ns (le_refl 0) fuel ((19723 * 86400 : Int) * 1000000000)
      (by norm_num [refT, utc])]
  · rfl

/-- Witness for `anchored_termination_amended`: its termination clause at
interval 1 from anchor 0 targeting 0. -/
theorem anchored_termination_witness :
    ∃ (fuel : Nat) (r : Int) (k : Nat), anchorLoop 1 0 fuel 0 = some r ∧
      r = 0 + 1 * k ∧ 0 < r ∧ ∀ j : Nat, j < k → (0 : Int) + 1 * (j : Int) ≤ 0 :=
  anchored_termination_amended.1 1 0 0 one_pos

/-! ### C6: unknown timezone handling -/

/-- C6 counterexample: in the anchored-interval form an unknown timezone is
not an error: the `LoadLocation` failure is ignored (part_001:214-217) and
the local zone is used, so `NextRun` returns an instant (09:00 UTC here). -/
theorem anchored_unknown_tz_cex :
    NextRun 30 dbEmpty utc "every 1h starting at 00:00 Bad/Zone".data refT =
      some (.ok ⟨(19723 * 86400 + 9 * 3600) * 1000000000, utc⟩) := by
  rfl

/-- C6 amended: the three clock-time forms do return an error on an unknown
timezone name, but the anchored-interval form silently falls back to the
local zone and returns an instant. -/
theorem unknown_tz_amended (t : GoTime) (lz : Location) :
    NextRun 1 dbEmpty lz "at 08:00 Europe/Nowhere".data t =
      some (.err "unknown TZ: europe/nowhere".data) ∧
    NextRun 1 dbEmpty lz "every day at 08:00 Europe/Nowhere".data t =
      some (.err "unknown TZ: europe/nowhere".data) ∧
    NextRun 1 dbEmpty lz "every weekday at 08:00 Europe/Nowhere".data t =
      some (.err "unknown TZ: europe/nowhere".data) ∧
    ∃ r : GoTime,
      NextRun 30 dbEmpty lz "every 1h starting at 00:00 Europe/Nowhere".data t =
        some (.ok r) := by
  refine ⟨rfl, rfl, rfl, ?_⟩
  have hred : NextRun 30 dbEmpty lz "every 1h starting at 00:00 Europe/Nowhere".data t =
      match anchorLoop 3600000000000 t.ns 30 (civilDate (inLoc t lz) 0 0).ns with
      | none => none
      | some r => some (.ok ⟨r, t.loc⟩) := rfl
  rw [hred]
  have hb : t.ns < (civilDate (inLoc t lz) 0 0).ns + 3600000000000 * (29 : Nat) := by
    simp only [civilDate, dayOf, localNs, inLoc, nsPerDay, nsPerHour, nsPerMin, nsPerSec]
    push_cast
    omega
  obtain ⟨r, hr⟩ := anchorLoop_reaches 3600000000000 t.ns (by norm_num) 29
    (civilDate (inLoc t lz) 0 0).ns hb
  rw [show (30 : Nat) = 29 + 1 from rfl, hr]
  exact ⟨⟨r, t.loc⟩, rfl⟩

/-! ### Helper lemmas for digit-string duration parsing -/

theorem isDigitC_toNat {c : Char} (h : isDigitC c = true) :
    48 ≤ c.toNat ∧ c.toNat ≤ 57 := by
  simpa [isDigitC, Bool.and_eq_true, decide_eq_true_eq] using h

theorem digit_ne {c : Char} (h : isDigitC c = true) {d : Char}
    (hd : isDigitC d = false) : c ≠ d := by
  intro he
  rw [he, hd] at h
  exact Bool.false_ne_true h

theorem digit_beq_false {c : Char} (h : isDigitC c = true) {d : Char}
    (hd : isDigitC d = false) : (d == c) = false :=
  beq_eq_false_iff_ne.mpr (Ne.symm (digit_ne h hd))

theorem digitsValFrom_cons (a : Nat) (c : Char) (ds : List Char) :
    digitsValFrom a (c :: ds) = digitsValFrom (a * 10 + (c.toNat - 48)) ds := rfl

theorem digitsValFrom_ge (ds : List Char) : ∀ a : Nat, a ≤ digitsValFrom a ds := by
  induction ds with
  | nil => intro a; exact le_refl a
  | cons c t ih =>
    intro a
    calc a ≤ a * 10 + (c.toNat - 48) := by omega
    _ ≤ digitsValFrom (a * 10 + (c.toNat - 48)) t := ih _

/-- `leadingInt` consumes exactly a digit prefix, returning its value, when
the accumulated value stays within Go's overflow guard. -/
theorem leadingInt_digits (ds : List Char) :
    ∀ (rest : List Char) (a : Nat),
      (∀ c ∈ ds, isDigitC c = true) →
      (rest = [] ∨ ∃ c t, rest = c :: t ∧ isDigitC c = false) →
      digitsValFrom a ds ≤ 2 ^ 63 / 10 →
      leadingInt (ds ++ rest) a = some (digitsValFrom a ds, rest) := by
  induction ds with
  | nil =>
    intro rest a _ hr _
    rcases hr with rfl | ⟨c, t, rfl, hc⟩
    · rfl
    · show leadingInt (c :: t) a = some (a, c :: t)
      unfold leadingInt
      rw [if_neg]
      simp [hc]
  | cons d ds ih =>
    intro rest a hdig hr hb
    have hd : isDigitC d = true := hdig d (by simp)
    have hge2 : a * 10 + (d.toNat - 48) ≤ digitsValFrom a (d :: ds) := by
      rw [digitsValFrom_cons]
      exact digitsValFrom_ge _ _
    show leadingInt (d :: (ds ++ rest)) a = _
    unfold leadingInt
    rw [if_pos hd, if_neg (by omega : ¬ a > 2 ^ 63 / 10)]
    show (if a * 10 + (d.toNat - 48) > 2 ^ 63 then none
      else leadingInt (ds ++ rest) (a * 10 + (d.toNat - 48))) =
      some (digitsValFrom a (d :: ds), rest)
    rw [if_neg (by omega : ¬ a * 10 + (d.toNat - 48) > 2 ^ 63)]
    rw [digitsValFrom_cons]
    exact ih rest _ (fun c hc => hdig c (by simp [hc])) hr
      (by rw [← digitsValFrom_cons]; exact hb)

theorem durGroups_nil (n d : Nat) : durGroups n [] d = some d := by
  cases n <;> rfl

/-- One `number unit` group: `durGroups` on a digit string followed by a
single non-digit, non-dot unit character. -/
theorem durGroups_one (n : Nat) (c : Char) (ds : List Char) (u : Char)
    (hc : isDigitC c = true) (hdig : ∀ x ∈ ds, isDigitC x = true)
    (hud : isDigitC u = false) (hdot : (u == '.') = false)
    (hb10 : digitsVal (c :: ds) ≤ 2 ^ 63 / 10) :
    durGroups (n + 1) (c :: (ds ++ [u])) 0 =
      match unitMapGo [u] with
      | none => none
      | some U =>
        if digitsVal (c :: ds) > 2 ^ 63 / U then none
        else if 0 + digitsVal (c :: ds) * U > 2 ^ 63 then none
        else some (0 + digitsVal (c :: ds) * U) := by
  have hli : leadingInt (c :: (ds ++ [u])) 0 = some (digitsVal (c :: ds), [u]) := by
    have h1 := leadingInt_digits (c :: ds) [u] 0 (by
        intro x hx
        rcases List.mem_cons.mp hx with rfl | hx2
        · exact hc
        · exact hdig x hx2)
      (Or.inr ⟨u, [], rfl, hud⟩) hb10
    rw [List.cons_append] at h1
    exact h1
  have hne2 : (u != '.') = true := by
    simp [bne, hdot]
  have htw : List.takeWhile (fun ch => !isDigitC ch && ch != '.') [u] = [u] := by
    simp [List.takeWhile, hud, hne2]
  have hhd : (([u] : List Char).head? == some '.') = false := hdot
  unfold durGroups
  rw [if_neg (by simp [hc])]
  rw [hli]
  show (if (([u] : List Char).head? == some '.') = true then none
    else
      let u2 := List.takeWhile (fun ch => !isDigitC ch && ch != '.') [u]
      let rest2 := List.drop u2.length [u]
      if u2.isEmpty then none
      else
        match unitMapGo u2 with
        | none => none
        | some unit =>
          if digitsVal (c :: ds) > 2 ^ 63 / unit then none
          else
            let d2 := 0 + digitsVal (c :: ds) * unit
            if d2 > 2 ^ 63 then none else durGroups n (List.drop u2.length [u]) d2) = _
  rw [if_neg (fun hcontra => by rw [hhd] at hcontra; exact Bool.false_ne_true hcontra)]
  simp only [htw]
  show (if ([u] : List Char).isEmpty = true then none
    else
      match unitMapGo [u] with
      | none => none
      | some unit =>
        if digitsVal (c :: ds) > 2 ^ 63 / unit then none
        else
          let d2 := 0 + digitsVal (c :: ds) * unit
          if d2 > 2 ^ 63 then none else durGroups n (List.drop ([u] : List Char).length [u]) d2) = _
  rw [if_neg (by simp)]
  cases unitMapGo [u] with
  | none => rfl
  | some U =>
    show (if digitsVal (c :: ds) > 2 ^ 63 / U then none
      else
        if 0 + digitsVal (c :: ds) * U > 2 ^ 63 then none
        else durGroups n [] (0 + digitsVal (c :: ds) * U)) =
      (if digitsVal (c :: ds) > 2 ^ 63 / U then none
        else if 0 + digitsVal (c :: ds) * U > 2 ^ 63 then none
        else some (0 + digitsVal (c :: ds) * U))
    by_cases h1 : digitsVal (c :: ds) > 2 ^ 63 / U
    · rw [if_pos h1, if_pos h1]
    · rw [if_neg h1, if_neg h1]
      by_cases h2 : 0 + digitsVal (c :: ds) * U > 2 ^ 63
      · rw [if_pos h2, if_pos h2]
      · rw [if_neg h2, if_neg h2]
        exact durGroups_nil n _

theorem signSplit_digit {c : Char} (t : List Char) (hc : isDigitC c = true) :
    signSplit (c :: t) = (false, c :: t) := by
  show (if c = '-' then ((true : Bool), t)
    else if c = '+' then ((false : Bool), t)
    else ((false : Bool), c :: t)) = (false, c :: t)
  rw [if_neg (digit_ne hc (by decide)), if_neg (digit_ne hc (by decide))]

/-- `goParseDuration` on a digit string followed by a unit character. -/
theorem goParseDuration_digits (c : Char) (ds : List Char) (u : Char)
    (hc : isDigitC c = true) (hdig : ∀ x ∈ ds, isDigitC x = true)
    (hud : isDigitC u = false) (hdot : (u == '.') = false)
    (hb10 : digitsVal (c :: ds) ≤ 2 ^ 63 / 10) :
    goParseDuration (c :: (ds ++ [u])) =
      match unitMapGo [u] with
      | none => none
      | some U =>
        if digitsVal (c :: ds) > 2 ^ 63 / U then none
        else if digitsVal (c :: ds) * U > 2 ^ 63 then none
        else if digitsVal (c :: ds) * U > 2 ^ 63 - 1 then none
        else some ((digitsVal (c :: ds) * U : Nat) : Int) := by
  unfold goParseDuration
  rw [signSplit_digit _ hc]
  show pdCore false (c :: (ds ++ [u])) = _
  unfold pdCore
  have h0 : ((c :: (ds ++ [u])) == ['0']) = false := by
    apply beq_eq_false_iff_ne.mpr
    intro hcontra
    have hlen := congrArg List.length hcontra
    simp at hlen
  rw [if_neg (fun hcontra => by rw [h0] at hcontra; exact Bool.false_ne_true hcontra)]
  rw [if_neg (by simp : ¬ (c :: (ds ++ [u])).isEmpty = true)]
  rw [show (c :: (ds ++ [u])).length + 1 = (ds ++ [u]).length + 1 + 1 from by simp]
  rw [durGroups_one ((ds ++ [u]).length + 1) c ds u hc hdig hud hdot hb10]
  simp only [Nat.zero_add]
  cases unitMapGo [u] with
  | none => rfl
  | some U =>
    show (match (if digitsVal (c :: ds) > 2 ^ 63 / U then none
        else if digitsVal (c :: ds) * U > 2 ^ 63 then none
        else some (digitsVal (c :: ds) * U) : Option Nat) with
      | none => none
      | some d =>
        if (false : Bool) then some (-(d : Int))
        else if d > 2 ^ 63 - 1 then none else some (d : Int)) =
      (if digitsVal (c :: ds) > 2 ^ 63 / U then none
        else if digitsVal (c :: ds) * U > 2 ^ 63 then none
        else if digitsVal (c :: ds) * U > 2 ^ 63 - 1 then none
        else some ((digitsVal (c :: ds) * U : Nat) : Int))
    by_cases h1 : digitsVal (c :: ds) > 2 ^ 63 / U
    · rw [if_pos h1]
      rw [if_pos h1]
    · rw [if_neg h1]
      rw [if_neg h1]
      by_cases h2 : digitsVal (c :: ds) * U > 2 ^ 63
      · rw [if_pos h2]
        rw [if_pos h2]
      · rw [if_neg h2]
        rw [if_neg h2]
        rfl

theorem dropWhile_nospace (s : List Char)
    (h : ∀ c ∈ s, isSpaceC c = false) : s.dropWhile isSpaceC = s := by
  cases s with
  | nil => rfl
  | cons c t =>
    rw [List.dropWhile_cons, if_neg]
    simp [h c (by simp)]

theorem goTrim_nospace (s : List Char)
    (h : ∀ c ∈ s, isSpaceC c = false) : goTrim s = s := by
  unfold goTrim
  rw [dropWhile_nospace s h,
    dropWhile_nospace s.reverse (fun c hc => h c (List.mem_reverse.mp hc)),
    List.reverse_reverse]

theorem digit_nonspace {c : Char} (h : isDigitC c = true) : isSpaceC c = false := by
  have h1 : (c == ' ') = false := beq_eq_false_iff_ne.mpr (digit_ne h (by decide))
  have h2 : (c == '\t') = false := beq_eq_false_iff_ne.mpr (digit_ne h (by decide))
  have h3 : (c == '\n') = false := beq_eq_false_iff_ne.mpr (digit_ne h (by decide))
  have h4 : (c == '\r') = false := beq_eq_false_iff_ne.mpr (digit_ne h (by decide))
  simp [isSpaceC, h1, h2, h3, h4]

theorem wrap64_eq (n : Int) (h1 : -(2 ^ 63) ≤ n) (h2 : n ≤ 2 ^ 63 - 1) :
    wrap64 n = n := by
  unfold wrap64
  omega

/-- `parseDur` unfolding on a `value ++ [unit]` string that trimming leaves
unchanged. -/
theorem parseDur_concat (v : List Char) (u : Char)
    (htrim : goTrim (v ++ [u]) = v ++ [u]) :
    parseDur (v ++ [u]) =
      match goParseDuration (v ++ [u]) with
      | some n => .ok n
      | none =>
        if u = 'd' then
          match goParseDuration (v ++ ['h']) with
          | some h2 => .ok (wrap64 (h2 * 24))
          | none => .error .invalid
        else .error .invalid := by
  simp only [parseDur]
  rw [htrim, List.getLast?_concat, List.dropLast_concat]

/-- `goParseDuration` on digits + known unit, all range checks passing. -/
theorem goParseDuration_digits_some (c : Char) (ds : List Char) (u : Char) (U : Nat)
    (hc : isDigitC c = true) (hdig : ∀ x ∈ ds, isDigitC x = true)
    (hud : isDigitC u = false) (hdot : (u == '.') = false)
    (hb10 : digitsVal (c :: ds) ≤ 2 ^ 63 / 10)
    (hmap : unitMapGo [u] = some U) (hU : 0 < U)
    (h3 : digitsVal (c :: ds) * U ≤ 2 ^ 63 - 1) :
    goParseDuration (c :: (ds ++ [u])) = some ((digitsVal (c :: ds) * U : Nat) : Int) := by
  rw [goParseDuration_digits c ds u hc hdig hud hdot hb10, hmap]
  have h1 : ¬ digitsVal (c :: ds) > 2 ^ 63 / U := by
    rw [gt_iff_lt, not_lt, Nat.le_div_iff_mul_le hU]
    omega
  show (if digitsVal (c :: ds) > 2 ^ 63 / U then none
    else if digitsVal (c :: ds) * U > 2 ^ 63 then none
    else if digitsVal (c :: ds) * U > 2 ^ 63 - 1 then none
    else some ((digitsVal (c :: ds) * U : Nat) : Int)) =
    some ((digitsVal (c :: ds) * U : Nat) : Int)
  rw [if_neg h1, if_neg (by omega : ¬ digitsVal (c :: ds) * U > 2 ^ 63),
    if_neg (by omega : ¬ digitsVal (c :: ds) * U > 2 ^ 63 - 1)]

/-- `goParseDuration` on digits + unknown unit fails. -/
theorem goParseDuration_digits_none (c : Char) (ds : List Char) (u : Char)
    (hc : isDigitC c = true) (hdig : ∀ x ∈ ds, isDigitC x = true)
    (hud : isDigitC u = false) (hdot : (u == '.') = false)
    (hb10 : digitsVal (c :: ds) ≤ 2 ^ 63 / 10)
    (hmap : unitMapGo [u] = none) :
    goParseDuration (c :: (ds ++ [u])) = none := by
  rw [goParseDuration_digits c ds u hc hdig hud hdot hb10, hmap]

/-- `parseDur` on a digit string plus a unit letter is exactly the digit
value times the unit in nanoseconds ('d' meaning 24 hours), whenever the
result fits an int64. -/
theorem parseDur_digits (ds : List Char) (u : Char)
    (hne : ds ≠ []) (hdig : ∀ x ∈ ds, isDigitC x = true)
    (hu : u = 's' ∨ u = 'm' ∨ u = 'h' ∨ u = 'd')
    (hb : digitsVal ds * unitNs u ≤ 2 ^ 63 - 1) :
    parseDur (ds ++ [u]) = .ok ((digitsVal ds * unitNs u : Nat) : Int) := by
  obtain ⟨c, ds', rfl⟩ := List.exists_cons_of_ne_nil hne
  have hc : isDigitC c = true := hdig c (by simp)
  have hdig' : ∀ x ∈ ds', isDigitC x = true := fun x hx => hdig x (by simp [hx])
  have htrim : goTrim ((c :: ds') ++ [u]) = (c :: ds') ++ [u] := by
    apply goTrim_nospace
    intro x hx
    rcases List.mem_append.mp hx with hx1 | hx2
    · exact digit_nonspace (hdig x hx1)
    · rcases hu with rfl | rfl | rfl | rfl <;> simp at hx2 <;> subst hx2 <;> rfl
  rw [show c :: ds' ++ [u] = (c :: ds') ++ [u] from rfl]
  rw [parseDur_concat (c :: ds') u htrim]
  rcases hu with rfl | rfl | rfl | rfl
  · -- seconds
    rw [show (c :: ds') ++ ['s'] = c :: (ds' ++ ['s']) from rfl]
    rw [goParseDuration_digits_some c ds' 's' 1000000000 hc hdig' (by decide) (by decide)
      (by simp only [unitNs] at hb; omega) (by decide) (by norm_num)
      (by simp only [unitNs] at hb; omega)]
    rfl
  · -- minutes
    rw [show (c :: ds') ++ ['m'] = c :: (ds' ++ ['m']) from rfl]
    rw [goParseDuration_digits_some c ds' 'm' 60000000000 hc hdig' (by decide) (by decide)
      (by simp only [unitNs] at hb; omega) (by decide) (by norm_num)
      (by simp only [unitNs] at hb; omega)]
    rfl
  · -- hours
    rw [show (c :: ds') ++ ['h'] = c :: (ds' ++ ['h']) from rfl]
    rw [goParseDuration_digits_some c ds' 'h' 3600000000000 hc hdig' (by decide) (by decide)
      (by simp only [unitNs] at hb; omega) (by decide) (by norm_num)
      (by simp only [unitNs] at hb; omega)]
    rfl
  · -- days: ParseDuration fails on 'd', retried with 'h' and multiplied by 24
    simp only [unitNs] at hb
    rw [show (c :: ds') ++ ['d'] = c :: (ds' ++ ['d']) from rfl]
    rw [goParseDuration_digits_none c ds' 'd' hc hdig' (by decide) (by decide) (by omega)
      (by decide)]
    rw [show (c :: ds') ++ ['h'] = c :: (ds' ++ ['h']) from rfl]
    rw [goParseDuration_digits_some c ds' 'h' 3600000000000 hc hdig' (by decide) (by decide)
      (by omega) (by decide) (by norm_num) (by omega)]
    show Except.ok (wrap64 (((digitsVal (c :: ds') * 3600000000000 : Nat) : Int) * 24)) =
      Except.ok ((digitsVal (c :: ds') * unitNs 'd' : Nat) : Int)
    rw [show ((digitsVal (c :: ds') * 3600000000000 : Nat) : Int) * 24 =
        ((digitsVal (c :: ds') * 86400000000000 : Nat) : Int) from by push_cast; ring]
    rw [wrap64_eq _ (by omega) (by omega)]
    rfl

theorem pfx_append_self (p rest : List Char) : pfx p (p ++ rest) = true := by
  induction p with
  | nil => rfl
  | cons c ps ih =>
    show ((c == c) && pfx ps (ps ++ rest)) = true
    rw [ih]
    simp

theorem sfx_single (a : Char) (Y : List Char) : sfx [a] (Y ++ [a]) = true := by
  unfold sfx
  rw [List.reverse_concat]
  show ((a == a) && pfx [] Y.reverse) = true
  simp [pfx]

theorem hasSub_atPad_nospace :
    ∀ s : List Char, (∀ x ∈ s, ((' ' : Char) == x) = false) →
      hasSub atPadLit s = false := by
  intro s
  induction s with
  | nil => intro h; rfl
  | cons c t ih =>
    intro h
    have hc : ((' ' : Char) == c) = false := h c (by simp)
    show (pfx atPadLit (c :: t) || hasSub atPadLit t) = false
    rw [ih (fun x hx => h x (by simp [hx]))]
    rw [show pfx atPadLit (c :: t) = ((' ' == c) && pfx ['a', 't', ' '] t) from rfl]
    rw [hc]
    rfl

/-- The string "every <digits><unit>" contains no " at " occurrence. -/
theorem atPad_absent (c : Char) (ds' : List Char) (u : Char)
    (hc : isDigitC c = true) (hdig : ∀ x ∈ ds', isDigitC x = true)
    (hsu : ((' ' : Char) == u) = false) :
    hasSub atPadLit ("every ".data ++ (c :: ds') ++ [u]) = false := by
  have hmem : ∀ x ∈ ds' ++ [u], ((' ' : Char) == x) = false := by
    intro x hx
    rcases List.mem_append.mp hx with h1 | h2
    · exact digit_beq_false (hdig x h1) (by decide)
    · simp at h2
      subst h2
      exact hsu
  have htail : hasSub atPadLit (ds' ++ [u]) = false := hasSub_atPad_nospace _ hmem
  have hac : (('a' : Char) == c) = false := digit_beq_false hc (by decide)
  have hsc : ((' ' : Char) == c) = false := digit_beq_false hc (by decide)
  show hasSub atPadLit ('e' :: 'v' :: 'e' :: 'r' :: 'y' :: ' ' :: (c :: (ds' ++ [u]))) = false
  have hpad : atPadLit = [' ', 'a', 't', ' '] := rfl
  rw [hpad] at htail
  simp only [hpad, hasSub, pfx, htail]
  simp +decide [hac, hsc]

theorem dropWhile_head_false (p : Char → Bool) (c : Char) (t : List Char)
    (h : p c = false) : (c :: t).dropWhile p = c :: t := by
  rw [List.dropWhile_cons, if_neg]
  simp [h]

theorem goTrim_headlast (c0 : Char) (mid : List Char) (u : Char)
    (h1 : isSpaceC c0 = false) (h2 : isSpaceC u = false) :
    goTrim ((c0 :: mid) ++ [u]) = (c0 :: mid) ++ [u] := by
  unfold goTrim
  rw [show (c0 :: mid) ++ [u] = c0 :: (mid ++ [u]) from rfl]
  rw [dropWhile_head_false isSpaceC c0 (mid ++ [u]) h1]
  rw [show c0 :: (mid ++ [u]) = (c0 :: mid) ++ [u] from rfl, List.reverse_concat]
  rw [dropWhile_head_false isSpaceC u _ h2]
  rw [← List.reverse_concat, List.reverse_reverse]

theorem lowerC_digit {c : Char} (h : isDigitC c = true) : lowerC c = c := by
  have hb := isDigitC_toNat h
  unfold lowerC
  rw [if_neg (by omega)]

theorem map_lowerC_digits (ds : List Char) (hdig : ∀ x ∈ ds, isDigitC x = true) :
    ds.map lowerC = ds := by
  have h : ∀ x ∈ ds, lowerC x = id x := fun x hx => lowerC_digit (hdig x hx)
  rw [List.map_congr_left h, List.map_id]

/-- "every <digits><unit>" takes the pure-interval branch of `NextRun`. -/
theorem pureIntervalCond_digits (ds : List Char) (u : Char)
    (hne : ds ≠ []) (hdig : ∀ x ∈ ds, isDigitC x = true)
    (hu : u = 's' ∨ u = 'm' ∨ u = 'h' ∨ u = 'd') :
    pureIntervalCond ("every ".data ++ ds ++ [u]) = true := by
  obtain ⟨c, ds', rfl⟩ := List.exists_cons_of_ne_nil hne
  have hsu : ((' ' : Char) == u) = false := by
    rcases hu with rfl | rfl | rfl | rfl <;> rfl
  unfold pureIntervalCond
  have h1 : pfx everyLit ("every ".data ++ (c :: ds') ++ [u]) = true := by
    rw [List.append_assoc]
    exact pfx_append_self "every ".data ((c :: ds') ++ [u])
  have h2 : hasSub atPadLit ("every ".data ++ (c :: ds') ++ [u]) = false :=
    atPad_absent c ds' u (hdig c (by simp)) (fun x hx => hdig x (by simp [hx])) hsu
  rw [h1, h2]
  rcases hu with rfl | rfl | rfl | rfl
  · rw [show ("s".data : List Char) = ['s'] from rfl, sfx_single 's' _]
    rfl
  · rw [show ("m".data : List Char) = ['m'] from rfl, sfx_single 'm' _]
    simp
  · rw [show ("h".data : List Char) = ['h'] from rfl, sfx_single 'h' _]
    simp
  · rw [show ("d".data : List Char) = ['d'] from rfl, sfx_single 'd' _]
    simp

/-! ### C7: pure-interval expressions -/

/-- C7 counterexample: "every 10000000000s" is a pure-interval expression
`every <N><unit>`, but its duration (10^19 ns) overflows Go's int64
duration range, so `NextRun` returns an error instead of `from + N·s`. -/
theorem pure_interval_overflow_cex :
    NextRun 1 dbEmpty utc "every 10000000000s".data refT =
      some (.err "bad duration".data) := by
  rfl

set_option maxHeartbeats 1000000 in
/-- C7 amended: for every pure-interval expression "every <digits><unit>"
with unit in {s, m, h, d} whose value N·unit fits in int64 nanoseconds,
`NextRun` returns exactly `from + N·unit` (with 'd' meaning 24h).  Beyond
that range the exact-result claim fails in two ways: units s/m/h are
rejected by `time.ParseDuration` (the C7 counterexample), while for 'd'
the `h * 24` product can silently wrap int64 — "every 200000d"
(200000·24h = 1.728·10^19 ns > 2^63-1) returns
`from + (-1166744073709551616 ns)`, an instant before `from`, not an
error and not `from + N·unit`. -/
theorem pure_interval_exact_amended :
    (∀ (ds : List Char) (u : Char) (t : GoTime) (fuel : Nat) (db : ZoneDB)
      (lz : Location), ds ≠ [] → (∀ c ∈ ds, isDigitC c = true) →
      (u = 's' ∨ u = 'm' ∨ u = 'h' ∨ u = 'd') →
      digitsVal ds * unitNs u ≤ 2 ^ 63 - 1 →
      NextRun fuel db lz ("every ".data ++ ds ++ [u]) t =
        some (.ok (addT t ((digitsVal ds * unitNs u : Nat) : Int)))) ∧
    NextRun 1 dbEmpty utc "every 200000d".data refT =
      some (.ok (addT refT (-1166744073709551616))) := by
  refine ⟨?_, rfl⟩
  intro ds u t fuel db lz hne hdig hu hb
  obtain ⟨c, ds', rfl⟩ := List.exists_cons_of_ne_nil hne
  have hus : isSpaceC u = false := by rcases hu with rfl | rfl | rfl | rfl <;> rfl
  have hlu : lowerC u = u := by rcases hu with rfl | rfl | rfl | rfl <;> rfl
  have hc : isDigitC c = true := hdig c (by simp)
  have htrim : goTrim ("every ".data ++ (c :: ds') ++ [u]) =
      "every ".data ++ (c :: ds') ++ [u] :=
    goTrim_headlast 'e' ("very ".data ++ (c :: ds')) u (by decide) hus
  have hlow : goToLower ("every ".data ++ (c :: ds') ++ [u]) =
      "every ".data ++ (c :: ds') ++ [u] := by
    unfold goToLower
    rw [List.map_append, List.map_append]
    rw [show List.map lowerC "every ".data = "every ".data from rfl]
    rw [map_lowerC_digits (c :: ds') hdig]
    rw [show List.map lowerC [u] = [u] from by rw [List.map_cons]; rw [hlu]; rfl]
  have hcond := pureIntervalCond_digits (c :: ds') u (by simp) hdig hu
  have hstrip : stripPfx everyLit ("every ".data ++ (c :: ds') ++ [u]) =
      (c :: ds') ++ [u] := by
    unfold stripPfx
    rw [List.append_assoc]
    rw [if_pos (show pfx everyLit ("every ".data ++ ((c :: ds') ++ [u])) = true from
      pfx_append_self "every ".data ((c :: ds') ++ [u]))]
    exact List.drop_left "every ".data ((c :: ds') ++ [u])
  simp only [NextRun]
  rw [htrim, hlow, hcond, if_pos rfl, hstrip]
  rw [parseDur_digits (c :: ds') u (by simp) hdig hu hb]

/-- Witness for `pure_interval_exact_amended` at "every 5m": exactly
`from + 5 minutes`. -/
theorem pure_interval_exact_witness :
    NextRun 1 dbEmpty utc ("every ".data ++ ['5'] ++ ['m']) refT =
      some (.ok (addT refT ((digitsVal ['5'] * unitNs 'm' : Nat) : Int))) :=
  pure_interval_exact_amended.1 ['5'] 'm' refT 1 dbEmpty utc (by simp)
    (by intro x hx; simp at hx; subst hx; rfl) (Or.inr (Or.inl rfl)) (by decide)

/-! ### C8: the clock-time algorithm -/

theorem weekdayT_addT (c : GoTime) (i : Int) :
    weekdayT (addT c (i * nsPerDay)) = (weekdayT c + i) % 7 := by
  obtain ⟨cns, ⟨coff⟩⟩ := c
  simp only [weekdayT, dayOf, localNs, addT, nsPerDay, nsPerHour, nsPerMin, nsPerSec]
  omega

/-- The weekday loop (with its always-sufficient fuel 7) advances by the
least number of days that lands on Monday..Friday, which is at most 2. -/
theorem weekdayAdvance_min (c : GoTime) :
    ∃ j : Nat, j ≤ 6 ∧
      weekdayAdvance 7 c = addT c ((j : Int) * nsPerDay) ∧
      (1 ≤ weekdayT (addT c ((j : Int) * nsPerDay)) ∧
        weekdayT (addT c ((j : Int) * nsPerDay)) ≤ 5) ∧
      ∀ i : Nat, i < j →
        ¬(1 ≤ weekdayT (addT c ((i : Int) * nsPerDay)) ∧
          weekdayT (addT c ((i : Int) * nsPerDay)) ≤ 5) := by
  obtain ⟨cns, cloc⟩ := c
  have hw : 0 ≤ weekdayT ⟨cns, cloc⟩ ∧ weekdayT ⟨cns, cloc⟩ < 7 := by
    unfold weekdayT
    omega
  have hs : ∀ i : Int, weekdayT (addT ⟨cns, cloc⟩ (i * nsPerDay)) =
      (weekdayT ⟨cns, cloc⟩ + i) % 7 := weekdayT_addT ⟨cns, cloc⟩
  rcases (by omega :
      (1 ≤ weekdayT (⟨cns, cloc⟩ : GoTime) ∧ weekdayT (⟨cns, cloc⟩ : GoTime) ≤ 5) ∨
      weekdayT (⟨cns, cloc⟩ : GoTime) = 0 ∨
      weekdayT (⟨cns, cloc⟩ : GoTime) = 6) with hk | hk | hk
  · refine ⟨0, by norm_num, ?_, ?_, ?_⟩
    · show (if 1 ≤ weekdayT (⟨cns, cloc⟩ : GoTime) ∧ weekdayT (⟨cns, cloc⟩ : GoTime) ≤ 5
        then (⟨cns, cloc⟩ : GoTime)
        else weekdayAdvance 6 (addT ⟨cns, cloc⟩ nsPerDay)) = _
      rw [if_pos hk]
      show (⟨cns, cloc⟩ : GoTime) = ⟨cns + ((0 : Nat) : Int) * nsPerDay, cloc⟩
      simp
    · rw [hs]
      push_cast
      omega
    · intro i hi
      omega
  · -- Sunday: one day to Monday
    refine ⟨1, by norm_num, ?_, ?_, ?_⟩
    · show (if 1 ≤ weekdayT (⟨cns, cloc⟩ : GoTime) ∧ weekdayT (⟨cns, cloc⟩ : GoTime) ≤ 5
        then (⟨cns, cloc⟩ : GoTime)
        else weekdayAdvance 6 (addT ⟨cns, cloc⟩ nsPerDay)) = _
      rw [if_neg (by omega)]
      have hd1 : weekdayT (addT ⟨cns, cloc⟩ nsPerDay) = 1 := by
        have := hs 1
        rw [show (1 : Int) * nsPerDay = nsPerDay from one_mul _] at this
        omega
      show (if 1 ≤ weekdayT (addT ⟨cns, cloc⟩ nsPerDay) ∧
          weekdayT (addT ⟨cns, cloc⟩ nsPerDay) ≤ 5
        then addT ⟨cns, cloc⟩ nsPerDay
        else weekdayAdvance 5 (addT (addT ⟨cns, cloc⟩ nsPerDay) nsPerDay)) = _
      rw [if_pos (by omega)]
      show addT (⟨cns, cloc⟩ : GoTime) nsPerDay = ⟨cns + ((1 : Nat) : Int) * nsPerDay, cloc⟩
      simp [addT]
    · rw [hs]
      push_cast
      omega
    · intro i hi
      have hi0 : i = 0 := by omega
      subst hi0
      rw [hs]
      push_cast
      omega
  · -- Saturday: two days to Monday
    have hd1 : weekdayT (addT ⟨cns, cloc⟩ nsPerDay) = 0 := by
      have := hs 1
      rw [show (1 : Int) * nsPerDay = nsPerDay from one_mul _] at this
      omega
    have hd2 : weekdayT (addT (addT ⟨cns, cloc⟩ nsPerDay) nsPerDay) = 1 := by
      have h2 := hs 2
      have he : addT (⟨cns, cloc⟩ : GoTime) (2 * nsPerDay) =
          addT (addT ⟨cns, cloc⟩ nsPerDay) nsPerDay := by
        simp [addT]
        ring
      rw [he] at h2
      omega
    refine ⟨2, by norm_num, ?_, ?_, ?_⟩
    · show (if 1 ≤ weekdayT (⟨cns, cloc⟩ : GoTime) ∧ weekdayT (⟨cns, cloc⟩ : GoTime) ≤ 5
        then (⟨cns, cloc⟩ : GoTime)
        else weekdayAdvance 6 (addT ⟨cns, cloc⟩ nsPerDay)) = _
      rw [if_neg (by omega)]
      show (if 1 ≤ weekdayT (addT ⟨cns, cloc⟩ nsPerDay) ∧
          weekdayT (addT ⟨cns, cloc⟩ nsPerDay) ≤ 5
        then addT ⟨cns, cloc⟩ nsPerDay
        else weekdayAdvance 5 (addT (addT ⟨cns, cloc⟩ nsPerDay) nsPerDay)) = _
      rw [if_neg (by omega)]
      show (if 1 ≤ weekdayT (addT (addT ⟨cns, cloc⟩ nsPerDay) nsPerDay) ∧
          weekdayT (addT (addT ⟨cns, cloc⟩ nsPerDay) nsPerDay) ≤ 5
        then addT (addT ⟨cns, cloc⟩ nsPerDay) nsPerDay
        else weekdayAdvance 4 (addT (addT (addT ⟨cns, cloc⟩ nsPerDay) nsPerDay) nsPerDay)) = _
      rw [if_pos (by omega)]
      show addT (addT (⟨cns, cloc⟩ : GoTime) nsPerDay) nsPerDay =
        ⟨cns + ((2 : Nat) : Int) * nsPerDay, cloc⟩
      simp [addT]
      ring
    · rw [hs]
      push_cast
      omega
    · intro i hi
      have hi01 : i = 0 ∨ i = 1 := by omega
      rcases hi01 with rfl | rfl
      · rw [hs]
        push_cast
        omega
      · rw [hs]
        push_cast
        omega

/-- C8: the clock-time algorithm as described — `nextAtTime` builds today's
HH:MM candidate in the target zone and advances it one day if not strictly
after the zone-local reference (`clockCand`); the weekday form then advances
by the least number of days landing on Monday..Friday; the result is
converted back to the reference instant's zone; and the spec's worked
examples hold: the next "every weekday at 08:00" from a Saturday 08:00 is
the following Monday 08:00, and "at 08:30" from 08:00 fires the same day
while from 09:00 it fires the next day. -/
theorem clock_time_algorithm :
    (∀ (t : GoTime) (hhmm : List Char) (loc : Location),
        nextAtTime t hhmm loc false = inLoc (clockCand t hhmm loc) t.loc) ∧
    (∀ (t : GoTime) (hhmm : List Char) (loc : Location), ∃ j : Nat, j ≤ 6 ∧
        nextAtTime t hhmm loc true =
          inLoc (addT (clockCand t hhmm loc) ((j : Int) * nsPerDay)) t.loc ∧
        (1 ≤ weekdayT (addT (clockCand t hhmm loc) ((j : Int) * nsPerDay)) ∧
          weekdayT (addT (clockCand t hhmm loc) ((j : Int) * nsPerDay)) ≤ 5) ∧
        ∀ i : Nat, i < j →
          ¬(1 ≤ weekdayT (addT (clockCand t hhmm loc) ((i : Int) * nsPerDay)) ∧
            weekdayT (addT (clockCand t hhmm loc) ((i : Int) * nsPerDay)) ≤ 5)) ∧
    NextRun 1 dbEmpty utc "every weekday at 08:00".data satT =
      some (.ok ⟨(19730 * 86400 + 8 * 3600) * 1000000000, utc⟩) ∧
    NextRun 1 dbEmpty utc "at 08:30".data refT =
      some (.ok ⟨(19723 * 86400 + 8 * 3600 + 1800) * 1000000000, utc⟩) ∧
    NextRun 1 dbEmpty utc "at 08:30".data (addT refT nsPerHour) =
      some (.ok ⟨(19724 * 86400 + 8 * 3600 + 1800) * 1000000000, utc⟩) := by
  refine ⟨?_, ?_, rfl, rfl, rfl⟩
  · intro t hhmm loc
    rfl
  · intro t hhmm loc
    obtain ⟨j, hj, he, hr, hmin⟩ := weekdayAdvance_min (clockCand t hhmm loc)
    refine ⟨j, hj, ?_, hr, hmin⟩
    rw [← he]
    rfl

/-! ### C4: backoff base and sleep interval -/

/-- C4 counterexample: with `backoffMin = 5s`, `backoffMax = 30s`,
attempt 1, the base is 10s as claimed, but the jitter value `base/4`
(= 2.5s) is drawable from `rand.Int63n(base/4 + 1)` and puts the sleep at
exactly `base/2 + base/4` = 7.5s — the endpoint the claim excludes.
Durations in nanoseconds. -/
theorem backoff_interval_cex :
    backoffBase 5000000000 30000000000 1 = 10000000000 ∧
    ((0 : Int) ≤ 2500000000 ∧ (2500000000 : Int) < jitterArg 10000000000) ∧
    sleepFor 10000000000 2500000000 =
      Int.tdiv 10000000000 2 + Int.tdiv 10000000000 4 ∧
    ¬ sleepFor 10000000000 2500000000 <
      Int.tdiv 10000000000 2 + Int.tdiv 10000000000 4 := by
  refine ⟨by decide, ⟨by decide, by decide⟩, by decide, by decide⟩

/-- C4 amended: whenever the int64 product `backoffMin · 2^min(attempt, 6)`
does not overflow (`0 ≤ backoffMin` and the product at most `2^63 - 1` ns),
the base equals `min(backoffMin · 2^min(attempt, 6), backoffMax)` as
claimed, and for every drawable jitter (`0 ≤ jitter < base/4 + 1`, the
semantics of `rand.Int63n(base/4 + 1)`) the sleep lies in the closed
interval `[base/2, base/2 + base/4]` — the upper endpoint is attained at
`jitter = base/4`.  Outside that regime the int64 product wraps: with
backoffMin 2·10^17 ns (DSL `backoff 200000000s..210000000s`) at attempt 6
the base is negative and `rand.Int63n`'s argument is nonpositive (a
runtime panic). -/
theorem backoff_bounds_amended :
    (∀ (bMin bMax : Int) (attempt : Nat) (jitter : Int),
      0 ≤ bMin → 2 ^ Nat.min attempt 6 * bMin ≤ 2 ^ 63 - 1 →
      0 ≤ jitter → jitter < jitterArg (backoffBase bMin bMax attempt) →
      backoffBase bMin bMax attempt = min (2 ^ Nat.min attempt 6 * bMin) bMax ∧
      Int.tdiv (backoffBase bMin bMax attempt) 2 ≤
        sleepFor (backoffBase bMin bMax attempt) jitter ∧
      sleepFor (backoffBase bMin bMax attempt) jitter ≤
        Int.tdiv (backoffBase bMin bMax attempt) 2 +
          Int.tdiv (backoffBase bMin bMax attempt) 4) ∧
    backoffBase 200000000000000000 210000000000000000 6 < 0 ∧
    jitterArg (backoffBase 200000000000000000 210000000000000000 6) ≤ 0 := by
  refine ⟨?_, by decide, by decide⟩
  intro bMin bMax attempt jitter hmin hnowrap hj hjlt
  have hbase : backoffBase bMin bMax attempt = min (2 ^ Nat.min attempt 6 * bMin) bMax := by
    unfold backoffBase
    have hp : (0 : Int) ≤ 2 ^ Nat.min attempt 6 * bMin :=
      mul_nonneg (by positivity) hmin
    rw [wrap64_eq _ (by omega) hnowrap]
    by_cases h : 2 ^ Nat.min attempt 6 * bMin > bMax
    · rw [if_pos h, min_eq_right (le_of_lt h)]
    · rw [if_neg h, min_eq_left (not_lt.mp h)]
  refine ⟨hbase, ?_, ?_⟩
  · unfold sleepFor
    omega
  · unfold sleepFor
    unfold jitterArg at hjlt
    omega

/-- Witness for `backoff_bounds_amended` at backoffMin 5s, backoffMax 30s,
attempt 1, jitter 0. -/
theorem backoff_bounds_witness :
    backoffBase 5000000000 30000000000 1 = min ((2 : Int) ^ Nat.min 1 6 * 5000000000) 30000000000 ∧
    Int.tdiv (backoffBase 5000000000 30000000000 1) 2 ≤
      sleepFor (backoffBase 5000000000 30000000000 1) 0 ∧
    sleepFor (backoffBase 5000000000 30000000000 1) 0 ≤
      Int.tdiv (backoffBase 5000000000 30000000000 1) 2 +
        Int.tdiv (backoffBase 5000000000 30000000000 1) 4 :=
  backoff_bounds_amended.1 5000000000 30000000000 1 0 (by decide) (by decide)
    (le_refl 0) (by decide)

/-! ### C10: executor environment handling -/

/-- C10: when the job declares environment entries the child receives
exactly the declared `KEY=VALUE` pairs (the parent environment is not
inherited); with no declared entries the child inherits the parent
environment unchanged. -/
theorem execer_env_exact (parent : List String) (env : List (String × String)) :
    (env ≠ [] → effectiveEnv parent env = env.map kvJoin) ∧
    (env = [] → effectiveEnv parent env = parent) := by
  refine ⟨fun h => ?_, fun h => ?_⟩
  · have hl : 0 < env.length := List.length_pos.mpr h
    simp [effectiveEnv, cmdEnvOf, hl]
  · subst h
    simp [effectiveEnv, cmdEnvOf]

/-- Witness for `execer_env_exact` at a one-entry declaration and at an
empty declaration. -/
theorem execer_env_exact_witness :
    effectiveEnv ["PARENT=1"] [("K", "V")] = [("K", "V")].map kvJoin ∧
    effectiveEnv ["PARENT=1"] ([] : List (String × String)) = ["PARENT=1"] :=
  ⟨(execer_env_exact ["PARENT=1"] [("K", "V")]).1 (List.cons_ne_nil _ _),
   (execer_env_exact ["PARENT=1"] []).2 rfl⟩

/-! ### C2: a timed-out attempt is not retried -/

/-- C2 counterexample: retryCount 1, the first attempt is canceled by its
per-attempt timeout, a retry would succeed — yet `runOnce` makes exactly one
executor call and ends in the backoff select's `runCtx.Done()` branch (the
timed-out attempt context is already closed), so the invocation is not
retried. -/
theorem runner_timeout_retry_cex :
    runOnce 1 resTimeoutThenOk = (RunEnd.canceledDuringBackoff, 1) ∧
    (runOnce 1 resTimeoutThenOk).1 ≠ RunEnd.success := by
  constructor
  · rfl
  · decide

/-- C2 amended: when a per-attempt timeout cancels an attempt and a retry
is still available (`attempt + 1 ≤ retryCount`), the backoff select waits on
the already-expired attempt context, so the runner returns immediately after
one executor call without retrying; an ordinary failure that leaves the
attempt context live is retried. -/
theorem runner_timeout_no_retry (retryN : Nat) (res res2 : Nat → AttRes)
    (h0 : res 0 = .failure true) (h2a : res2 0 = .failure false)
    (h2b : res2 1 = .success) (hr : 1 ≤ retryN) :
    runOnce retryN res = (RunEnd.canceledDuringBackoff, 1) ∧
    runOnce retryN res2 = (RunEnd.success, 2) := by
  obtain ⟨n, rfl⟩ : ∃ n, retryN = n + 1 := ⟨retryN - 1, by omega⟩
  have h1 : ¬ (0 + 1 > n + 1) := by omega
  constructor
  · unfold runOnce
    simp [runOnceLoop, h0, h1]
  · unfold runOnce
    simp [runOnceLoop, h2a, h2b, h1]

/-- Witness for `runner_timeout_no_retry` at retryCount 2. -/
theorem runner_timeout_no_retry_witness :
    runOnce 2 resTimeoutThenOk = (RunEnd.canceledDuringBackoff, 1) ∧
    runOnce 2 resFailThenOk = (RunEnd.success, 2) :=
  runner_timeout_no_retry 2 resTimeoutThenOk resFailThenOk rfl rfl rfl (by norm_num)

/-! ### C3: mutual exclusion under the skip policy -/

theorem engInv_init : EngInv engInit := by
  intro j
  simp [engInit]

theorem engInv_step {s s2 : EngState} {e : EngEv}
    (hs : EngInv s) (st : EngStep s e s2) : EngInv s2 := by
  intro j
  obtain ⟨h1, h2, h3⟩ := hs j
  cases st with
  | fireBusy hb => exact ⟨h1, h2, h3⟩
  | fireFree hnb =>
    rename_i j2
    by_cases hj : j = j2
    · subst hj
      have hc : s.inflight.count j = 0 := by
        rcases Nat.lt_or_ge (s.inflight.count j) 1 with h | h
        · omega
        · exact absurd (h2.mpr (by omega)) hnb
      have hbc : s.busy.count j = 0 := List.count_eq_zero.mpr hnb
      refine ⟨?_, ?_, ?_⟩
      · simp [List.count_cons, hc]
      · simp [List.count_cons, hc]
      · simp [List.count_cons, hbc]
    · have hj2 : j2 ≠ j := fun h => hj h.symm
      refine ⟨?_, ?_, ?_⟩
      · simpa [List.count_cons, hj2] using h1
      · simpa [List.mem_cons, List.count_cons, hj, hj2] using h2
      · simpa [List.count_cons, hj2] using h3
  | complete hin =>
    rename_i j2
    by_cases hj : j = j2
    · subst hj
      have hc1 : s.inflight.count j = 1 := by
        have hp : 0 < s.inflight.count j := List.count_pos_iff.mpr hin
        omega
      have hb : j ∈ s.busy := h2.mpr hc1
      have hbc : s.busy.count j = 1 := by
        have hp : 0 < s.busy.count j := List.count_pos_iff.mpr hb
        omega
      refine ⟨?_, ?_, ?_⟩
      · simp only [List.count_erase_self]
        omega
      · simp only [List.count_erase_self, hc1, hbc]
        constructor
        · intro hmem
          have hp : 0 < (s.busy.erase j).count j := List.count_pos_iff.mpr hmem
          rw [List.count_erase_self, hbc] at hp
          omega
        · intro h
          omega
      · simp only [List.count_erase_self]
        omega
    · refine ⟨?_, ?_, ?_⟩
      · simp only [List.count_erase_of_ne hj]
        exact h1
      · simp only [List.count_erase_of_ne hj]
        constructor
        · intro hmem
          exact h2.mp ((List.mem_erase_of_ne hj).mp hmem)
        · intro h
          exact (List.mem_erase_of_ne hj).mpr (h2.mpr h)
      · simp only [List.count_erase_of_ne hj]
        exact h3

/-- C3: at every reachable state of the engine's busy-set protocol the
invariant holds (no job has two invocations in flight; a name is busy
exactly while its invocation is in flight; at most one busy entry per
name); and an occurrence firing while its job is busy changes neither the
in-flight multiset nor the busy set and records exactly one skip event. -/
theorem engine_skip_mutual_exclusion :
    (∀ s, EngReachable s → EngInv s) ∧
    (∀ (s s2 : EngState) (j : String), j ∈ s.busy → EngStep s (.fire j) s2 →
      s2.inflight = s.inflight ∧ s2.skips = j :: s.skips ∧ s2.busy = s.busy) := by
  constructor
  · intro s hs
    induction hs with
    | init => exact engInv_init
    | step _ st ih => exact engInv_step ih st
  · intro s s2 j hb st
    cases st with
    | fireBusy h => exact ⟨rfl, rfl, rfl⟩
    | fireFree h => exact absurd hb h

/-- Witness for `engine_skip_mutual_exclusion`: the state reached by
dispatching job "a" and then firing "a" again while it is busy. -/
theorem engine_skip_mutual_exclusion_witness :
    EngInv ⟨["a"], ["a"], ["a"]⟩ ∧
    (⟨["a"], ["a"], ["a"]⟩ : EngState).inflight = (⟨["a"], ["a"], []⟩ : EngState).inflight :=
  ⟨engine_skip_mutual_exclusion.1 _
      (EngReachable.step
        (EngReachable.step EngReachable.init (EngStep.fireFree (by simp [engInit])))
        (EngStep.fireBusy (by simp))),
   (engine_skip_mutual_exclusion.2 ⟨["a"], ["a"], []⟩ ⟨["a"], ["a"], ["a"]⟩ "a" (by simp)
      (EngStep.fireBusy (by simp))).1⟩

end Crono
